import Mathlib

/-!
# IBAN validation (`iban.cpp`)

A shallow embedding of the validation core of the PostgreSQL `iban` extension:
the `Specification` / `Validate` classes, the ISO 7064 MOD 97-10 check
`iso7064Mod97_10`, `Validate::isValid` and `Validate::isSepaCountry`.

Conventions of the embedding:

* a `char` is represented by its code (a natural number), a `std::string` by
  the list of its chars; `str "GB82"` is the string with the codes of `G B 8 2`;
* character classification (`isdigit`, `isupper`, `toupper`) is that of the
  "C" locale, where only the ASCII range is classified;
* a call either returns a value, lets a C++ exception escape, or (in the model
  only) exhausts the iteration budget of the `while` loop: see `Outcome`;
* `size_t` arithmetic is carried out modulo `2 ^ 64`;
* a compiled `std::regex` is represented by the predicate that
  `std::regex_match` computes when it returns; the `std::regex` library is not
  part of the repository, so its constructor (which rejects an ill-formed
  pattern) and the strings on which its matcher runs out of resources are
  parameters: see `Specification.construct` and `Specification.regex_match`.
-/

namespace Iban

/-- A `std::string`: the list of the codes of its chars. -/
abbrev CString := List Nat

/-- The string whose chars are the characters of a literal. -/
def str (s : String) : CString := s.toList.map Char.toNat

/-- The exceptions of the standard library that the code can meet. -/
inductive Exn where
  | out_of_range
  | invalid_argument
  | regex_error
  deriving DecidableEq, Repr

/-- Result of running a piece of the program: normal return, an escaping
exception, or exhaustion of the loop budget of the model. -/
inductive Outcome (α : Type) where
  | ret (a : α)
  | raise (e : Exn)
  | diverge
  deriving DecidableEq, Repr

/-- Sequencing: the continuation runs on a normal return only. -/
def Outcome.bind {α β : Type} (x : Outcome α) (f : α → Outcome β) : Outcome β :=
  match x with
  | .ret a => f a
  | .raise e => .raise e
  | .diverge => .diverge

/-- The function `std::isdigit` in the "C" locale. -/
def isdigit (c : Nat) : Bool := decide (48 ≤ c) && decide (c ≤ 57)

/-- The function `std::isupper` in the "C" locale. -/
def isupper (c : Nat) : Bool := decide (65 ≤ c) && decide (c ≤ 90)

/-- The function `toupper` in the "C" locale. -/
def toupper (c : Nat) : Nat := if 97 ≤ c ∧ c ≤ 122 then c - 32 else c

/-- The function `tolower` in the "C" locale; the code does not call it, the
statement of case-insensitivity does. -/
def tolower (c : Nat) : Nat := if 65 ≤ c ∧ c ≤ 90 then c + 32 else c

/-- The function `std::to_string` on a non-negative `int`: its decimal digits. -/
def to_string (n : Nat) : CString := (Nat.toDigits 10 n).map Char.toNat

/-- Two to the width of `size_t`. -/
def SIZE_MOD : Nat := 18446744073709551616

/-- The largest `long` (LP64). -/
def LONG_MAX : Nat := 9223372036854775807

/-- The call `s.substr(pos, n)`: throws `std::out_of_range` when `pos > s.size()`,
otherwise the at most `n` chars from `pos` on. -/
def substr (s : CString) (pos n : Nat) : Outcome CString :=
  if s.length < pos then .raise .out_of_range else .ret ((s.drop pos).take n)

/-- The call `s.substr(pos)`: throws `std::out_of_range` when `pos > s.size()`,
otherwise everything from `pos` on. -/
def substrFrom (s : CString) (pos : Nat) : Outcome CString :=
  if s.length < pos then .raise .out_of_range else .ret (s.drop pos)

/-- Value of a run of decimal digits, most significant first. -/
def decimal (ds : CString) : Nat := ds.foldl (fun acc c => 10 * acc + (c - 48)) 0

/-- The function `std::stol` on a string that starts with a digit or is empty (the only
strings the checksum passes to it, so white space and sign are left out): the
leading digits are converted; `std::invalid_argument` when there is none,
`std::out_of_range` when the value does not fit a `long`. -/
def stol (s : CString) : Outcome Nat :=
  let ds := s.takeWhile isdigit
  if ds.isEmpty then .raise .invalid_argument
  else if LONG_MAX < decimal ds then .raise .out_of_range
  else .ret (decimal ds)

/-- The call `std::rotate(iban.begin(), iban.begin() + 4, iban.end())` on a
string of at least four chars (on a shorter one the call is undefined; `isValid`
never makes it). -/
def rotate4 (iban : CString) : CString := iban.drop 4 ++ iban.take 4

/-- What one char appends to `numberstring` (the body of the `for` loop). -/
def substitute (c : Nat) : CString :=
  (if isdigit c then [c] else []) ++ (if isupper c then to_string (c - 55) else [])

/-- The `for` loop that builds `numberstring`, the letter substitutions. -/
def numberstring : CString → CString
  | [] => []
  | c :: rest => substitute c ++ numberstring rest

/-- The `while` loop of `iso7064Mod97_10`, from the state
`(segstart, step, prepended)`; it returns the state at loop exit. The first
argument bounds the number of iterations. -/
def chunkLoop (ns : CString) : Nat → Nat → Nat → CString → Outcome (Nat × CString)
  | 0, _, _, _ => .diverge
  | fuel + 1, segstart, step, prepended =>
    if segstart < (ns.length + SIZE_MOD - step) % SIZE_MOD then
      (substr ns segstart step).bind fun seg =>
      (stol (prepended ++ seg)).bind fun number =>
      let remainder := number % 97
      let prepended :=
        if remainder < 10 then 48 :: to_string remainder else to_string remainder
      chunkLoop ns fuel ((segstart + step) % SIZE_MOD) 7 prepended
    else .ret (segstart, prepended)

/-- The function `iso7064Mod97_10`. -/
def iso7064Mod97_10 (iban : CString) : Outcome Bool :=
  let ns := numberstring (rotate4 iban)
  (chunkLoop ns (ns.length + 2) 0 9 []).bind fun exit =>
  (substrFrom ns exit.1).bind fun tail =>
  (stol (exit.2 ++ tail)).bind fun number =>
  .ret (decide (number % 97 = 1))

/-- The class `Specification`: the compiled pattern, the length and the SEPA
flag. The field `checkRegex` is what `std::regex_match` against the pattern
answers when it returns; `Specification.regex_match` is the call with its
failure. -/
structure Specification where
  checkRegex : CString → Bool
  getLength : Nat
  isSepa : Bool

/-- The class `Validate`: the map `specifications`, as the list of its
entries. -/
structure Validate where
  specifications : List (CString × Specification)

/-- The lookup `specifications.find(key)`; `none` stands for `end()`. -/
def Validate.find (v : Validate) (key : CString) : Option Specification :=
  v.specifications.lookup key

/-- Result of a call of a `noexcept` function: it returns, or an exception
reaches its boundary and `std::terminate` ends the process. -/
inductive Noexcept (α : Type) where
  | ret (a : α)
  | terminate

/-- The constructor of `Specification`: it compiles the pattern string into
the member `structure`. The parameter `regex` is the constructor of
`std::regex`: `none` when it throws `std::regex_error` on an ill-formed
pattern, otherwise the predicate of the compiled pattern. -/
def Specification.construct (regex : CString → Option (CString → Bool))
    (pattern : CString) (length : Nat) (is_sepa : Bool) : Outcome Specification :=
  match regex pattern with
  | none => .raise .regex_error
  | some matcher => .ret ⟨matcher, length, is_sepa⟩

/-- The method `Validate::addSpecification`. The argument
`std::make_unique<Specification>(structure, length, is_sepa)` is evaluated
first, and an exception of the constructor ends in `std::terminate`, the method
being `noexcept`; then `std::map::emplace` inserts only when the key is not yet
present, and otherwise drops the new `Specification`. -/
def Validate.addSpecification (regex : CString → Option (CString → Bool)) (v : Validate)
    (countryCode : CString) (length : Nat) (pattern : CString) (is_sepa : Bool) :
    Noexcept Validate :=
  match Specification.construct regex pattern length is_sepa with
  | .ret spec =>
    match v.find countryCode with
    | some _ => .ret v
    | none => .ret ⟨v.specifications ++ [(countryCode, spec)]⟩
  | .raise _ => .terminate
  | .diverge => .terminate

/-- The method `Validate::isValid`, on the runs in which `std::regex_match`
returns; `Validate.isValidFull` is the method with the failure of that call. -/
def Validate.isValid (v : Validate) (account : CString) : Outcome Bool :=
  let account := account.map toupper
  if account.length < 5 then .ret false
  else
    (substr account 0 2).bind fun countryCode =>
    (substrFrom account 4).bind fun shortened =>
    match v.find countryCode with
    | none => .ret false
    | some spec =>
      if spec.getLength = account.length then
        if spec.checkRegex shortened then iso7064Mod97_10 account else .ret false
      else .ret false

/-- The method `Validate::isSepaCountry`. -/
def Validate.isSepaCountry (v : Validate) (countryCode : CString) : Outcome Bool :=
  (substr countryCode 0 2).bind fun shortened =>
  if shortened.length ≠ 2 then .ret false
  else
    match v.find (shortened.map toupper) with
    | none => .ret false
    | some spec => .ret spec.isSepa

/-- The pattern "four uppercase letters followed by fourteen digits", as a
full-match predicate. -/
def gbPattern (s : CString) : Bool :=
  decide (s.length = 18) && (s.take 4).all isupper && (s.drop 4).all isdigit

/-- A registry with the single rule `GB`: length 22, `gbPattern`, SEPA. -/
def gbRegistry : Validate := ⟨[(str "GB", ⟨gbPattern, 22, true⟩)]⟩

/-- The pattern "one digit", as a full-match predicate. -/
def oneDigit (s : CString) : Bool := decide (s.length = 1) && s.all isdigit

/-- A registry with the single rule `AA`: length 5, one digit after the
four-char prefix. -/
def shortRegistry : Validate := ⟨[(str "AA", ⟨oneDigit, 5, false⟩)]⟩

/-- The constructor of `std::regex` on the two patterns of the examples: the
pattern `[0-9]` compiles to `oneDigit`, the pattern `[` (a bracket expression
that is never closed) is rejected. Other patterns are not modelled: the
examples do not use them, and they are treated like `[`. -/
def exampleRegex (pattern : CString) : Option (CString → Bool) :=
  if pattern = str "[0-9]" then some oneDigit else none

/-- The numeric value of an uppercase letter in the specification:
`A` is 10, ..., `Z` is 35. -/
def letterValue (c : Nat) : Nat := c - 65 + 10

/-- The re-encoding of one char in the specification: a digit maps to itself,
an uppercase letter to the two decimal digits of its value; any other char
contributes nothing. -/
def reencode (c : Nat) : CString :=
  if isdigit c then [c]
  else if isupper c then [48 + letterValue c / 10, 48 + letterValue c % 10]
  else []

/-- The digit string `D(s)` of the specification: rotate `s` left by four, then
re-encode every char. -/
def D (s : CString) : CString := ((s.rotate 4).map reencode).flatten

/-- The unbounded integer denoted by a string of decimal digits. -/
def denoted (ds : CString) : Nat := Nat.ofDigits 10 ((ds.map fun c => c - 48).reverse)

/-- Two chars of the same class: both decimal digits or both uppercase
letters. -/
def sameClass (a c : Nat) : Bool := (isdigit a && isdigit c) || (isupper a && isupper c)

/-- The pattern "five chars, each an uppercase letter or a digit", as a
full-match predicate. -/
def fiveAlnum (s : CString) : Bool :=
  decide (s.length = 5) && s.all fun c => isdigit c || isupper c

/-- A registry with the single rule `AA`: length 9, `fiveAlnum`. -/
def alnumRegistry : Validate := ⟨[(str "AA", ⟨fiveAlnum, 9, false⟩)]⟩

/-! ## The reduction without the padding step, and the reduction with a log -/

/-- The `while` loop of `iso7064Mod97_10` with the padding step
`if (remainder < 10) prepended = "0" + prepended` left out. This is not the
code: it is the variant with which the code is compared. -/
def chunkLoopUnpadded (ns : CString) : Nat → Nat → Nat → CString → Outcome (Nat × CString)
  | 0, _, _, _ => .diverge
  | fuel + 1, segstart, step, prepended =>
    if segstart < (ns.length + SIZE_MOD - step) % SIZE_MOD then
      (substr ns segstart step).bind fun seg =>
      (stol (prepended ++ seg)).bind fun number =>
      let remainder := number % 97
      chunkLoopUnpadded ns fuel ((segstart + step) % SIZE_MOD) 7 (to_string remainder)
    else .ret (segstart, prepended)

/-- The function `iso7064Mod97_10` with the padding step left out (see
`chunkLoopUnpadded`). -/
def unpaddedMod97_10 (iban : CString) : Outcome Bool :=
  let ns := numberstring (rotate4 iban)
  (chunkLoopUnpadded ns (ns.length + 2) 0 9 []).bind fun exit =>
  (substrFrom ns exit.1).bind fun tail =>
  (stol (exit.2 ++ tail)).bind fun number =>
  .ret (decide (number % 97 = 1))

/-- What a run of the reduction does that its numeric bounds are about: a call
of `std::stol` with its argument, and the end of a loop iteration with the
values of `remainder` and `prepended` there. -/
inductive Event where
  | stolCall (argument : CString)
  | iterationEnd (remainder : Nat) (prepended : CString)
  deriving DecidableEq, Repr

/-- The `while` loop of `iso7064Mod97_10` as in `chunkLoop`, which also
returns the events of the run in order. -/
def chunkLoopLog (ns : CString) :
    Nat → Nat → Nat → CString → List Event × Outcome (Nat × CString)
  | 0, _, _, _ => ([], .diverge)
  | fuel + 1, segstart, step, prepended =>
    if segstart < (ns.length + SIZE_MOD - step) % SIZE_MOD then
      match substr ns segstart step with
      | .raise e => ([], .raise e)
      | .diverge => ([], .diverge)
      | .ret seg =>
        match stol (prepended ++ seg) with
        | .raise e => ([.stolCall (prepended ++ seg)], .raise e)
        | .diverge => ([.stolCall (prepended ++ seg)], .diverge)
        | .ret number =>
          let remainder := number % 97
          let padded :=
            if remainder < 10 then 48 :: to_string remainder else to_string remainder
          let rest := chunkLoopLog ns fuel ((segstart + step) % SIZE_MOD) 7 padded
          (.stolCall (prepended ++ seg) :: .iterationEnd remainder padded :: rest.1, rest.2)
    else ([], .ret (segstart, prepended))

/-- The statements of `iso7064Mod97_10` after the loop, with the events so
far, which the last `std::stol` call extends. -/
def finishLog (ns : CString) (run : List Event × Outcome (Nat × CString)) :
    List Event × Outcome Bool :=
  match run with
  | (log, .raise e) => (log, .raise e)
  | (log, .diverge) => (log, .diverge)
  | (log, .ret exit) =>
    match substrFrom ns exit.1 with
    | .raise e => (log, .raise e)
    | .diverge => (log, .diverge)
    | .ret tail =>
      (log ++ [.stolCall (exit.2 ++ tail)],
        (stol (exit.2 ++ tail)).bind fun number => .ret (decide (number % 97 = 1)))

/-- The function `iso7064Mod97_10` with the events of its run. -/
def iso7064Mod97_10_log (iban : CString) : List Event × Outcome Bool :=
  finishLog (numberstring (rotate4 iban))
    (chunkLoopLog (numberstring (rotate4 iban)) ((numberstring (rotate4 iban)).length + 2) 0 9 [])

/-- The numeric bounds on one event: `std::stol` gets a non-empty string of at
most nine decimal digits, whose value is below `10 ^ 9` and so fits a signed
32-bit `long`; at the end of an iteration the remainder is at most 96 and
`prepended` is exactly two digits. -/
def Event.inBounds : Event → Prop
  | .stolCall argument =>
    argument ≠ [] ∧ argument.length ≤ 9 ∧ (∀ c ∈ argument, isdigit c = true) ∧
      decimal argument < 10 ^ 9 ∧ decimal argument ≤ 2147483647
  | .iterationEnd remainder prepended =>
    remainder ≤ 96 ∧ prepended.length = 2 ∧ ∀ c ∈ prepended, isdigit c = true

/-- The registries in which every key is two uppercase letters, every length is
at least 9, and every pattern matches only strings of uppercase letters and
digits. -/
def Validate.alnumRules (v : Validate) : Prop :=
  ∀ key spec, (key, spec) ∈ v.specifications →
    key.length = 2 ∧ (∀ c ∈ key, isupper c = true) ∧ 9 ≤ spec.getLength ∧
      ∀ t, spec.checkRegex t = true → ∀ c ∈ t, isdigit c = true ∨ isupper c = true

/-- Two values of `prepended` that `std::stol` cannot tell apart in front of a
run of digits: digit strings with the same value, both empty or both not. -/
def samePrefixValue (p q : CString) : Prop :=
  (∀ c ∈ p, isdigit c = true) ∧ (∀ c ∈ q, isdigit c = true) ∧
    decimal p = decimal q ∧ (p = [] ↔ q = [])

/-- Two runs of the loop that agree up to the rendering of `prepended`. -/
def sameExit (o o' : Outcome (Nat × CString)) : Prop :=
  (∃ seg p q, o = .ret (seg, p) ∧ o' = .ret (seg, q) ∧ samePrefixValue p q) ∨
    (∃ e, o = .raise e ∧ o' = .raise e) ∨ (o = .diverge ∧ o' = .diverge)

/-- The registries in which every key is two uppercase letters. -/
def Validate.letterKeys (v : Validate) : Prop :=
  ∀ key spec, (key, spec) ∈ v.specifications →
    key.length = 2 ∧ ∀ c ∈ key, isupper c = true
/-! ## Basic facts about the string primitives -/

theorem bind_ret {α β : Type} (a : α) (f : α → Outcome β) :
    (Outcome.ret a).bind f = f a := rfl

theorem bind_raise {α β : Type} (e : Exn) (f : α → Outcome β) :
    (Outcome.raise e : Outcome α).bind f = .raise e := rfl

theorem substr_zero (s : CString) (n : Nat) : substr s 0 n = .ret (s.take n) := by
  simp [substr]

theorem substrFrom_of_le (s : CString) (pos : Nat) (h : pos ≤ s.length) :
    substrFrom s pos = .ret (s.drop pos) := by
  simp [substrFrom, Nat.not_lt.mpr h]

/-- The body of `isValid` with the two `substr` calls resolved. -/
theorem isValid_unfold (v : Validate) (x : CString) :
    v.isValid x =
      if (x.map toupper).length < 5 then .ret false
      else
        match v.find ((x.map toupper).take 2) with
        | none => .ret false
        | some spec =>
          if spec.getLength = (x.map toupper).length then
            if spec.checkRegex ((x.map toupper).drop 4) then iso7064Mod97_10 (x.map toupper)
            else .ret false
          else .ret false := by
  unfold Validate.isValid
  by_cases h : (x.map toupper).length < 5
  · simp only [h, if_true]
  · have h4 : 4 ≤ (x.map toupper).length := by omega
    simp only [h, if_false, substr_zero, substrFrom_of_le _ _ h4, bind_ret]

/-- The body of `isSepaCountry` with the `substr` call resolved. -/
theorem isSepaCountry_unfold (v : Validate) (s : CString) :
    v.isSepaCountry s =
      if s.length < 2 then .ret false
      else
        match v.find ((s.take 2).map toupper) with
        | none => .ret false
        | some spec => .ret spec.isSepa := by
  unfold Validate.isSepaCountry
  simp only [substr_zero, bind_ret]
  by_cases h : s.length < 2
  · have : (s.take 2).length ≠ 2 := by simp [List.length_take]; omega
    simp [h, this]
  · have : (s.take 2).length = 2 := by simp [List.length_take]; omega
    simp [h, this]

theorem toupper_tolower (c : Nat) : toupper (tolower c) = toupper c := by
  unfold toupper tolower
  split_ifs <;> omega

theorem map_toupper_tolower (x : CString) :
    (x.map tolower).map toupper = x.map toupper := by
  simp [List.map_map, Function.comp_def, toupper_tolower]

/-- When `isValid` returns true, in terms of the checks it makes. -/
theorem isValid_ret_true (v : Validate) (x : CString) :
    v.isValid x = .ret true ↔
      5 ≤ (x.map toupper).length ∧
      ∃ spec, v.find ((x.map toupper).take 2) = some spec ∧
        spec.getLength = (x.map toupper).length ∧
        spec.checkRegex ((x.map toupper).drop 4) = true ∧
        iso7064Mod97_10 (x.map toupper) = .ret true := by
  rw [isValid_unfold]
  by_cases h : (x.map toupper).length < 5
  · simp only [h, if_true]
    constructor
    · intro hc; cases hc
    · rintro ⟨h5, _⟩; omega
  · simp only [h, if_false]
    cases hf : v.find ((x.map toupper).take 2) with
    | none =>
      constructor
      · intro hc; cases hc
      · rintro ⟨_, spec, hs, _⟩; cases hs
    | some spec =>
      have h5 : 5 ≤ (x.map toupper).length := by omega
      constructor
      · intro hc
        by_cases hl : spec.getLength = (x.map toupper).length
        · by_cases hr : spec.checkRegex ((x.map toupper).drop 4) = true
          · simp only [hl, hr, if_true] at hc
            exact ⟨h5, spec, rfl, hl, hr, hc⟩
          · simp only [hl, hr, if_true, if_false] at hc
            cases hc
        · simp only [hl, if_false] at hc
          cases hc
      · rintro ⟨_, spec2, hs, hl, hr, hc⟩
        cases hs
        simp only [hl, hr, if_true]
        exact hc

/-! ## Claims about `isValid` and `isSepaCountry` -/

/-- C1: `isValid x` returns true exactly when the upper-cased input `u` has at
least five chars, the registry has an entry for the first two chars of `u`,
that entry's length is the length of `u`, its pattern matches `u` from index 4
on, and `iso7064Mod97_10 u` returns true. -/
theorem isValid_eq_true_iff (v : Validate) (x : CString) :
    v.isValid x = .ret true ↔
      5 ≤ (x.map toupper).length ∧
      ∃ spec, v.find ((x.map toupper).take 2) = some spec ∧
        spec.getLength = (x.map toupper).length ∧
        spec.checkRegex ((x.map toupper).drop 4) = true ∧
        iso7064Mod97_10 (x.map toupper) = .ret true :=
  isValid_ret_true v x

/-- C4: `isValid` depends on its input only through the ASCII-uppercase form:
inputs with the same uppercase form get the same result, and lower-casing an
input does not change the result. -/
theorem isValid_case_insensitive (v : Validate) (x y : CString)
    (h : x.map toupper = y.map toupper) :
    v.isValid x = v.isValid y ∧ v.isValid (x.map tolower) = v.isValid x := by
  refine ⟨?_, ?_⟩
  · rw [isValid_unfold, isValid_unfold, h]
  · rw [isValid_unfold, isValid_unfold, map_toupper_tolower]

theorem isValid_case_insensitive_witness :
    (str "gb82west12345698765432").map toupper = (str "GB82WEST12345698765432").map toupper ∧
    (gbRegistry.isValid (str "gb82west12345698765432")
        = gbRegistry.isValid (str "GB82WEST12345698765432") ∧
      gbRegistry.isValid ((str "gb82west12345698765432").map tolower)
        = gbRegistry.isValid (str "gb82west12345698765432")) :=
  ⟨by decide, isValid_case_insensitive gbRegistry _ _ (by decide)⟩

/-- C6: when the upper-cased first two chars of the input are not a key of the
registry, `isValid` returns false and `isSepaCountry` returns false. -/
theorem unknown_country_rejected (v : Validate) (x : CString)
    (h : v.find ((x.map toupper).take 2) = none) :
    v.isValid x = .ret false ∧ v.isSepaCountry x = .ret false := by
  refine ⟨?_, ?_⟩
  · rw [isValid_unfold, h]
    split_ifs <;> rfl
  · rw [isSepaCountry_unfold, List.map_take, h]
    split_ifs <;> rfl

theorem unknown_country_rejected_witness :
    gbRegistry.find (((str "ZZ820000000000").map toupper).take 2) = none ∧
    (gbRegistry.isValid (str "ZZ820000000000") = .ret false ∧
      gbRegistry.isSepaCountry (str "ZZ820000000000") = .ret false) :=
  ⟨rfl, unknown_country_rejected gbRegistry _ rfl⟩

/-- C7: `isSepaCountry s` returns false when `s` has fewer than two chars, and
otherwise the SEPA flag of the entry keyed by the upper-cased first two chars
(false when there is none); so only the first two chars matter, and a full
lower-case IBAN gives the same answer as its upper-case country code. -/
theorem isSepaCountry_spec (v : Validate) (s : CString) :
    v.isSepaCountry s =
        .ret (if s.length < 2 then false
              else match v.find ((s.take 2).map toupper) with
                | none => false
                | some spec => spec.isSepa) ∧
      (∀ t : CString, t.take 2 = s.take 2 → v.isSepaCountry t = v.isSepaCountry s) ∧
      v.isSepaCountry (str "de89370400440532013000") = v.isSepaCountry (str "DE") := by
  refine ⟨?_, ?_, ?_⟩
  · rw [isSepaCountry_unfold]
    by_cases h : s.length < 2
    · simp [h]
    · simp only [h, if_false]
      cases v.find ((s.take 2).map toupper) <;> rfl
  · intro t ht
    have h1 := congrArg List.length ht
    simp only [List.length_take] at h1
    rw [isSepaCountry_unfold, isSepaCountry_unfold, ht]
    by_cases hs : s.length < 2
    · have hl : t.length < 2 := by omega
      simp only [hs, hl, if_true]
    · have hl : ¬ t.length < 2 := by omega
      simp only [hs, hl, if_false]
  · rw [isSepaCountry_unfold, isSepaCountry_unfold]
    have h1 : ((str "de89370400440532013000").take 2).map toupper
        = ((str "DE").take 2).map toupper := by decide
    have h2 : ¬ (str "de89370400440532013000").length < 2 := by decide
    have h3 : ¬ (str "DE").length < 2 := by decide
    rw [h1, if_neg h2, if_neg h3]

/-- C8: on every input of fewer than five chars `isValid` returns false,
whatever the registry holds. -/
theorem isValid_too_short (v : Validate) (x : CString) (h : x.length < 5) :
    v.isValid x = .ret false := by
  rw [isValid_unfold]
  simp [h]

theorem isValid_too_short_witness :
    (str "GB82").length < 5 ∧ gbRegistry.isValid (str "GB82") = .ret false :=
  ⟨by decide, isValid_too_short gbRegistry _ (by decide)⟩

/-! ## Digits -/

theorem to_string_two_digits :
    ∀ n, n < 100 → 10 ≤ n → to_string n = [48 + n / 10, 48 + n % 10] := by
  decide

theorem to_string_one_digit : ∀ n, n < 10 → to_string n = [48 + n] := by
  decide

/-- The zero-padded remainder is the two-digit rendering of the remainder. -/
theorem padded_eq (r : Nat) (h : r < 97) :
    (if r < 10 then 48 :: to_string r else to_string r) = [48 + r / 10, 48 + r % 10] := by
  by_cases h10 : r < 10
  · rw [if_pos h10, to_string_one_digit r h10]
    have h1 : r / 10 = 0 := by omega
    have h2 : r % 10 = r := by omega
    rw [h1, h2]
  · rw [if_neg h10, to_string_two_digits r (by omega) (by omega)]

theorem isdigit_iff (c : Nat) : isdigit c = true ↔ 48 ≤ c ∧ c ≤ 57 := by
  simp [isdigit]

theorem isupper_iff (c : Nat) : isupper c = true ↔ 65 ≤ c ∧ c ≤ 90 := by
  simp [isupper]

theorem decimal_append_singleton (ds : CString) (c : Nat) :
    decimal (ds ++ [c]) = 10 * decimal ds + (c - 48) := by
  simp [decimal, List.foldl_append]

theorem decimal_append (a b : CString) :
    decimal (a ++ b) = decimal a * 10 ^ b.length + decimal b := by
  induction b using List.reverseRecOn generalizing a with
  | nil => simp [decimal]
  | append_singleton b c ih =>
    rw [← List.append_assoc, decimal_append_singleton, decimal_append_singleton, ih]
    simp only [List.length_append, List.length_singleton, pow_succ]
    ring

theorem decimal_lt (ds : CString) (h : ∀ c ∈ ds, isdigit c = true) :
    decimal ds < 10 ^ ds.length := by
  induction ds using List.reverseRecOn with
  | nil => simp [decimal]
  | append_singleton ds c ih =>
    have hc := (isdigit_iff c).1 (h c (by simp))
    have := ih (fun d hd => h d (by simp [hd]))
    rw [decimal_append_singleton]
    simp only [List.length_append, List.length_singleton, pow_succ]
    omega

theorem stol_digits (ds : CString) (h : ∀ c ∈ ds, isdigit c = true) (hne : ds ≠ [])
    (hlen : ds.length ≤ 9) : stol ds = .ret (decimal ds) := by
  have htw : ds.takeWhile isdigit = ds := List.takeWhile_eq_self_iff.2 h
  have hlt := decimal_lt ds h
  have hpow : 10 ^ ds.length ≤ 10 ^ 9 := Nat.pow_le_pow_right (by decide) hlen
  have hmax : ¬ LONG_MAX < decimal ds := by
    have : (10 : Nat) ^ 9 ≤ LONG_MAX := by decide
    omega
  unfold stol
  simp only [htw]
  have : ds.isEmpty = false := by
    cases ds with
    | nil => exact absurd rfl hne
    | cons _ _ => rfl
  simp [this, hmax]

theorem stol_nil : stol [] = .raise .invalid_argument := by
  decide

theorem substitute_digits (c d : Nat) (h : d ∈ substitute c) : isdigit d = true := by
  unfold substitute at h
  by_cases hd : isdigit c = true
  · by_cases hu : isupper c = true
    · have := (isdigit_iff c).1 hd
      have := (isupper_iff c).1 hu
      omega
    · simp [hd, hu] at h
      rw [h]; exact hd
  · by_cases hu : isupper c = true
    · have hu2 := (isupper_iff c).1 hu
      rw [to_string_two_digits (c - 55) (by omega) (by omega)] at h
      simp [hd, hu] at h
      rw [isdigit_iff]
      omega
    · simp [hd, hu] at h

theorem numberstring_digits (s : CString) : ∀ d ∈ numberstring s, isdigit d = true := by
  induction s with
  | nil => intro d hd; simp [numberstring] at hd
  | cons c rest ih =>
    intro d hd
    simp only [numberstring, List.mem_append] at hd
    rcases hd with hd | hd
    · exact substitute_digits c d hd
    · exact ih d hd

theorem substitute_length_le (c : Nat) : (substitute c).length ≤ 2 := by
  unfold substitute
  by_cases hd : isdigit c = true
  · by_cases hu : isupper c = true
    · have := (isdigit_iff c).1 hd
      have := (isupper_iff c).1 hu
      omega
    · simp [hd, hu]
  · by_cases hu : isupper c = true
    · have hu2 := (isupper_iff c).1 hu
      rw [to_string_two_digits (c - 55) (by omega) (by omega)]
      simp [hd, hu]
    · simp [hd, hu]

theorem numberstring_length_le (s : CString) : (numberstring s).length ≤ 2 * s.length := by
  induction s with
  | nil => simp [numberstring]
  | cons c rest ih =>
    have := substitute_length_le c
    simp only [numberstring, List.length_append, List.length_cons]
    omega

theorem rotate4_length (s : CString) : (rotate4 s).length = s.length := by
  simp only [rotate4, List.length_append, List.length_drop, List.length_take]
  omega

/-! ## The chunked reduction -/

theorem mod_step (a b k c : Nat) (h : a % 97 = b % 97) :
    (a * k + c) % 97 = (b * k + c) % 97 :=
  Nat.ModEq.add_right c (Nat.ModEq.mul_right k h)

theorem decimal_two (r : Nat) (h : r < 97) : decimal [48 + r / 10, 48 + r % 10] = r := by
  simp only [decimal, List.foldl_cons, List.foldl_nil]
  omega

theorem two_digits (r : Nat) (h : r < 97) :
    ∀ c ∈ [48 + r / 10, 48 + r % 10], isdigit c = true := by
  intro c hc
  simp only [List.mem_cons, List.mem_singleton, List.not_mem_nil, or_false] at hc
  rw [isdigit_iff]
  rcases hc with rfl | rfl <;> omega

/-- Invariant of the `while` loop on a numeric string of at least nine digits:
`prepended` is congruent to the prefix already consumed, and at loop exit at
least one and at most `9 - prepended.length` digits remain. -/
theorem chunkLoop_spec (ns : CString) (hd : ∀ c ∈ ns, isdigit c = true)
    (hL : 9 ≤ ns.length) (hS : ns.length < SIZE_MOD) :
    ∀ (fuel segstart step : Nat) (prepended : CString),
      ns.length < segstart + fuel →
      segstart < ns.length →
      (step = 9 ∨ step = 7) →
      prepended.length + step = 9 →
      (∀ c ∈ prepended, isdigit c = true) →
      decimal prepended % 97 = decimal (ns.take segstart) % 97 →
      ∃ seg p, chunkLoop ns fuel segstart step prepended = .ret (seg, p) ∧
        seg < ns.length ∧ p.length + (ns.length - seg) ≤ 9 ∧
        (∀ c ∈ p, isdigit c = true) ∧
        decimal p % 97 = decimal (ns.take seg) % 97 := by
  intro fuel
  induction fuel with
  | zero =>
    intro segstart step prepended hfuel hseg
    omega
  | succ fuel ih =>
    intro segstart step prepended hfuel hseg hstep hplen hpd hval
    have hwrap : (ns.length + SIZE_MOD - step) % SIZE_MOD = ns.length - step := by
      unfold SIZE_MOD at *
      omega
    rw [chunkLoop, hwrap]
    by_cases hc : segstart < ns.length - step
    · rw [if_pos hc]
      have hsub : substr ns segstart step = .ret ((ns.drop segstart).take step) := by
        unfold substr
        rw [if_neg (by omega)]
      rw [hsub, bind_ret]
      have hseglen : ((ns.drop segstart).take step).length = step := by
        simp only [List.length_take, List.length_drop]
        omega
      have hsegd : ∀ c ∈ (ns.drop segstart).take step, isdigit c = true :=
        fun c hc => hd c (List.mem_of_mem_drop (List.mem_of_mem_take hc))
      have hall : ∀ c ∈ prepended ++ (ns.drop segstart).take step, isdigit c = true := by
        intro c hc
        rcases List.mem_append.1 hc with h1 | h1
        · exact hpd c h1
        · exact hsegd c h1
      have hne : prepended ++ (ns.drop segstart).take step ≠ [] := by
        intro h0
        have := congrArg List.length h0
        simp only [List.length_append, hseglen, List.length_nil] at this
        omega
      have hstol := stol_digits _ hall hne (by simp only [List.length_append, hseglen]; omega)
      rw [hstol, bind_ret]
      simp only
      have hr : decimal (prepended ++ (ns.drop segstart).take step) % 97 < 97 :=
        Nat.mod_lt _ (by decide)
      rw [padded_eq _ hr]
      have hadd : (segstart + step) % SIZE_MOD = segstart + step :=
        Nat.mod_eq_of_lt (by unfold SIZE_MOD at *; omega)
      rw [hadd]
      apply ih
      · omega
      · omega
      · right; rfl
      · rfl
      · exact two_digits _ hr
      · rw [decimal_two _ hr, Nat.mod_mod, List.take_add, decimal_append, decimal_append]
        exact mod_step _ _ _ _ hval
    · rw [if_neg hc]
      exact ⟨segstart, prepended, rfl, hseg, by omega, hpd, hval⟩

/-- On a numeric string of at least nine digits the check returns whether the
number it denotes leaves remainder 1 modulo 97. -/
theorem iso_of_long (s : CString) (hL : 9 ≤ (numberstring (rotate4 s)).length)
    (hS : (numberstring (rotate4 s)).length < SIZE_MOD) :
    iso7064Mod97_10 s = .ret (decide (decimal (numberstring (rotate4 s)) % 97 = 1)) := by
  have hd := numberstring_digits (rotate4 s)
  unfold iso7064Mod97_10
  simp only
  generalize numberstring (rotate4 s) = ns at hL hS hd
  have h0 : decimal ([] : CString) % 97 = decimal (ns.take 0) % 97 := by
    rw [List.take_zero]
  have hnil : ∀ c ∈ ([] : CString), isdigit c = true := by
    intro c hc; cases hc
  have hlen0 : ([] : CString).length + 9 = 9 := rfl
  obtain ⟨seg, p, hloop, hseg, hlen, hpd, hval⟩ :=
    chunkLoop_spec ns hd hL hS (ns.length + 2) 0 9 [] (by omega) (by omega) (Or.inl rfl) hlen0
      hnil h0
  rw [hloop, bind_ret]
  simp only
  rw [substrFrom_of_le _ _ (by omega), bind_ret]
  have hall : ∀ c ∈ p ++ ns.drop seg, isdigit c = true := by
    intro c hc
    rcases List.mem_append.1 hc with h1 | h1
    · exact hpd c h1
    · exact hd c (List.mem_of_mem_drop h1)
  have hne : p ++ ns.drop seg ≠ [] := by
    intro h0
    have := congrArg List.length h0
    simp only [List.length_append, List.length_drop, List.length_nil] at this
    omega
  rw [stol_digits _ hall hne (by simp only [List.length_append, List.length_drop]; omega),
    bind_ret]
  have hsplit : decimal ns
      = decimal (ns.take seg) * 10 ^ (ns.drop seg).length + decimal (ns.drop seg) := by
    rw [← decimal_append, List.take_append_drop]
  rw [decimal_append, mod_step _ _ _ _ hval, ← hsplit]

/-- On a numeric string of fewer than nine digits the check throws: the
unsigned difference `numberstring.length() - step` wraps around, the loop is
entered, and `segstart` ends up beyond the end of the string. -/
theorem iso_of_short (s : CString) (hL : (numberstring (rotate4 s)).length < 9) :
    iso7064Mod97_10 s =
      .raise (if (numberstring (rotate4 s)).length = 0 then .invalid_argument
              else .out_of_range) := by
  have hd := numberstring_digits (rotate4 s)
  unfold iso7064Mod97_10
  simp only
  generalize numberstring (rotate4 s) = ns at hL hd
  have hw9 : (0 : Nat) < (ns.length + SIZE_MOD - 9) % SIZE_MOD := by
    unfold SIZE_MOD
    omega
  have hsub : substr ns 0 9 = .ret ns := by
    rw [substr_zero, List.take_of_length_le (by omega)]
  have hadd : (0 + 9) % SIZE_MOD = 9 := by
    unfold SIZE_MOD
    omega
  rw [chunkLoop, if_pos hw9, hsub, bind_ret, List.nil_append]
  by_cases h0 : ns.length = 0
  · have hnil : ns = [] := List.length_eq_zero.1 h0
    subst hnil
    rw [stol_nil, bind_raise, bind_raise]
    rfl
  · have hne : ns ≠ [] := fun h => h0 (by rw [h]; rfl)
    rw [stol_digits ns hd hne (by omega), bind_ret, if_neg h0]
    simp only
    rw [hadd, chunkLoop]
    by_cases h7 : 9 < (ns.length + SIZE_MOD - 7) % SIZE_MOD
    · have hsub2 : substr ns 9 7 = .raise .out_of_range := by
        unfold substr
        rw [if_pos hL]
      rw [if_pos h7, hsub2, bind_raise, bind_raise]
    · have hsub3 : substrFrom ns 9 = .raise .out_of_range := by
        unfold substrFrom
        rw [if_pos hL]
      rw [if_neg h7, bind_ret]
      simp only
      rw [hsub3, bind_raise]

/-! ## The code against the specification of the checksum -/

theorem substitute_eq_reencode (c : Nat) : substitute c = reencode c := by
  unfold substitute reencode letterValue
  by_cases hd : isdigit c = true
  · have hu : isupper c = false := by
      have := (isdigit_iff c).1 hd
      rw [← Bool.not_eq_true, isupper_iff]
      omega
    simp only [hd, hu, if_true, if_false, List.append_nil, Bool.false_eq_true]
  · rw [Bool.not_eq_true] at hd
    by_cases hu : isupper c = true
    · have hu2 := (isupper_iff c).1 hu
      have h55 : c - 55 = c - 65 + 10 := by omega
      rw [to_string_two_digits (c - 55) (by omega) (by omega), h55]
      simp only [hd, hu, if_true, if_false, List.nil_append, Bool.false_eq_true]
    · rw [Bool.not_eq_true] at hu
      simp only [hd, hu, if_false, List.append_nil, Bool.false_eq_true]

theorem numberstring_eq_flatten (t : CString) :
    numberstring t = (t.map reencode).flatten := by
  induction t with
  | nil => rfl
  | cons c rest ih =>
    rw [numberstring, ih, substitute_eq_reencode, List.map_cons, List.flatten_cons]

theorem numberstring_rotate4_eq_D (s : CString) (h : 4 ≤ s.length) :
    numberstring (rotate4 s) = D s := by
  rw [numberstring_eq_flatten, D, List.rotate_eq_drop_append_take h, rotate4]

theorem decimal_eq_denoted (ds : CString) : decimal ds = denoted ds := by
  induction ds using List.reverseRecOn with
  | nil => simp [decimal, denoted]
  | append_singleton ds c ih =>
    rw [decimal_append_singleton, ih]
    simp only [denoted, List.map_append, List.map_cons, List.map_nil, List.reverse_append,
      List.reverse_cons, List.reverse_nil, List.nil_append, List.singleton_append,
      Nat.ofDigits_cons]
    omega

theorem numberstring_size (s : CString) (h : s.length < 2 ^ 63) :
    (numberstring (rotate4 s)).length < SIZE_MOD := by
  have h1 := numberstring_length_le (rotate4 s)
  rw [rotate4_length] at h1
  have h2 : (2 : Nat) ^ 63 = 9223372036854775808 := by norm_num
  unfold SIZE_MOD
  omega

/-- C10: the chunked reduction computes the true remainder. For every string
`s` of at least four chars (shorter than `2 ^ 63`, as every `std::string` is)
whose digit string `D s` has at least nine digits, in particular for every such
string of uppercase letters and digits, `iso7064Mod97_10 s` returns, and it
returns true exactly when the integer denoted by `D s` is congruent to 1
modulo 97. -/
theorem chunked_reduction_is_remainder (s : CString) (hlen : 4 ≤ s.length)
    (h9 : 9 ≤ (D s).length) (hsize : s.length < 2 ^ 63) :
    ∃ b, iso7064Mod97_10 s = .ret b ∧ (b = true ↔ denoted (D s) ≡ 1 [MOD 97]) := by
  have hns := numberstring_rotate4_eq_D s hlen
  refine ⟨decide (denoted (D s) % 97 = 1), ?_, ?_⟩
  · rw [iso_of_long s (by rw [hns]; exact h9) (numberstring_size s hsize), hns,
      decimal_eq_denoted]
  · rw [decide_eq_true_iff]
    exact Iff.rfl

theorem chunked_reduction_is_remainder_witness :
    4 ≤ (str "GB82WEST12345698765432").length ∧
    9 ≤ (D (str "GB82WEST12345698765432")).length ∧
    (str "GB82WEST12345698765432").length < 2 ^ 63 ∧
    ∃ b, iso7064Mod97_10 (str "GB82WEST12345698765432") = .ret b ∧
      (b = true ↔ denoted (D (str "GB82WEST12345698765432")) ≡ 1 [MOD 97]) :=
  ⟨by decide, by decide, by decide,
    chunked_reduction_is_remainder _ (by decide) (by decide) (by decide)⟩

/-! ## Substitution of one char -/

theorem numberstring_append (a b : CString) :
    numberstring (a ++ b) = numberstring a ++ numberstring b := by
  induction a with
  | nil => rfl
  | cons c rest ih => rw [List.cons_append, numberstring, numberstring, ih, List.append_assoc]

theorem substitute_digit (c : Nat) (h : isdigit c = true) : substitute c = [c] := by
  have hu : isupper c = false := by
    have := (isdigit_iff c).1 h
    rw [← Bool.not_eq_true, isupper_iff]
    omega
  unfold substitute
  simp only [h, hu, if_true, if_false, List.append_nil, Bool.false_eq_true]

theorem substitute_upper (c : Nat) (h : isupper c = true) :
    substitute c = [48 + (c - 55) / 10, 48 + (c - 55) % 10] := by
  have h2 := (isupper_iff c).1 h
  have hd : isdigit c = false := by
    rw [← Bool.not_eq_true, isdigit_iff]
    omega
  unfold substitute
  rw [to_string_two_digits (c - 55) (by omega) (by omega)]
  simp only [h, hd, if_true, if_false, List.nil_append, Bool.false_eq_true]

/-- Two different chars of the same class are re-encoded by equally many
digits, with different values below 97. -/
theorem substitute_sameClass (a c : Nat) (h : sameClass a c = true) (hne : a ≠ c) :
    (substitute a).length = (substitute c).length ∧
      decimal (substitute a) < 97 ∧ decimal (substitute c) < 97 ∧
      decimal (substitute a) ≠ decimal (substitute c) := by
  unfold sameClass at h
  rw [Bool.or_eq_true, Bool.and_eq_true, Bool.and_eq_true] at h
  rcases h with ⟨ha, hc⟩ | ⟨ha, hc⟩
  · have ha2 := (isdigit_iff a).1 ha
    have hc2 := (isdigit_iff c).1 hc
    rw [substitute_digit a ha, substitute_digit c hc]
    simp only [decimal, List.foldl_cons, List.foldl_nil, List.length_singleton]
    refine ⟨trivial, by omega, by omega, fun h => hne (by omega)⟩
  · have ha2 := (isupper_iff a).1 ha
    have hc2 := (isupper_iff c).1 hc
    rw [substitute_upper a ha, substitute_upper c hc, decimal_two _ (by omega),
      decimal_two _ (by omega)]
    simp only [List.length_cons, List.length_nil]
    refine ⟨trivial, by omega, by omega, fun h => hne (by omega)⟩

theorem coprime_97_pow (k : Nat) : Nat.gcd 97 (10 ^ k) = 1 :=
  Nat.Coprime.pow_right k (by decide)

/-- Replacing one char by a different char of the same class keeps the length
of the numeric string and changes its remainder modulo 97. -/
theorem numberstring_subst (A B : CString) (a c : Nat) (h : sameClass a c = true)
    (hne : a ≠ c) :
    (numberstring (A ++ a :: B)).length = (numberstring (A ++ c :: B)).length ∧
      decimal (numberstring (A ++ a :: B)) % 97 ≠ decimal (numberstring (A ++ c :: B)) % 97 := by
  obtain ⟨hlen, ha, hc, hval⟩ := substitute_sameClass a c h hne
  have hshape : ∀ x : Nat, numberstring (A ++ x :: B)
      = (numberstring A ++ substitute x) ++ numberstring B := by
    intro x
    rw [numberstring_append, numberstring, List.append_assoc]
  refine ⟨?_, ?_⟩
  · rw [hshape, hshape]
    simp only [List.length_append, hlen]
  · intro heq
    rw [hshape, hshape, decimal_append, decimal_append, decimal_append, decimal_append,
      hlen] at heq
    have h1 : (decimal (numberstring A) * 10 ^ (substitute c).length + decimal (substitute a))
          * 10 ^ (numberstring B).length
        ≡ (decimal (numberstring A) * 10 ^ (substitute c).length + decimal (substitute c))
          * 10 ^ (numberstring B).length [MOD 97] :=
      Nat.ModEq.add_right_cancel' _ heq
    have h2 := Nat.ModEq.cancel_right_of_coprime (coprime_97_pow _) h1
    have h3 : decimal (substitute a) ≡ decimal (substitute c) [MOD 97] :=
      Nat.ModEq.add_left_cancel' _ h2
    unfold Nat.ModEq at h3
    rw [Nat.mod_eq_of_lt ha, Nat.mod_eq_of_lt hc] at h3
    exact hval h3

theorem rotate4_subst (A B : CString) (a : Nat) (hA : 4 ≤ A.length) :
    rotate4 (A ++ a :: B) = A.drop 4 ++ a :: (B ++ A.take 4) := by
  unfold rotate4
  rw [List.drop_append_of_le_length hA, List.take_append_of_le_length hA, List.append_assoc,
    List.cons_append]

/-- The check detects the replacement, at index 4 or later, of one char by a
different char of the same class. -/
theorem iso_subst_tail (A B : CString) (a c : Nat) (hA : 4 ≤ A.length)
    (h : sameClass a c = true) (hne : a ≠ c)
    (hS : (numberstring (rotate4 (A ++ a :: B))).length < SIZE_MOD)
    (hok : iso7064Mod97_10 (A ++ a :: B) = .ret true) :
    iso7064Mod97_10 (A ++ c :: B) = .ret false := by
  have hsub := numberstring_subst (A.drop 4) (B ++ A.take 4) a c h hne
  rw [← rotate4_subst A B a hA, ← rotate4_subst A B c hA] at hsub
  obtain ⟨hlen, hval⟩ := hsub
  have hL : 9 ≤ (numberstring (rotate4 (A ++ a :: B))).length := by
    by_contra hlt
    rw [iso_of_short _ (by omega)] at hok
    cases hok
  rw [iso_of_long _ hL hS] at hok
  have h1 : decimal (numberstring (rotate4 (A ++ a :: B))) % 97 = 1 := by
    injection hok with hb
    exact of_decide_eq_true hb
  rw [iso_of_long _ (by rw [← hlen]; exact hL) (by rw [← hlen]; exact hS)]
  have h2 : ¬ decimal (numberstring (rotate4 (A ++ c :: B))) % 97 = 1 := by
    intro h3
    exact hval (h1.trans h3.symm)
  rw [decide_eq_false h2]

theorem split_at_index (x : CString) (i a : Nat) (h : x[i]? = some a) :
    x = x.take i ++ a :: x.drop (i + 1) := by
  obtain ⟨hlt, hget⟩ := List.getElem?_eq_some.1 h
  rw [← hget, List.getElem_cons_drop, List.take_append_drop]

theorem set_at_index (x : CString) (i a c : Nat) (h : x[i]? = some a) :
    x.set i c = x.take i ++ c :: x.drop (i + 1) := by
  obtain ⟨hlt, _⟩ := List.getElem?_eq_some.1 h
  rw [List.set_eq_take_append_cons_drop, if_pos hlt]

/-! ## Claims settled on concrete inputs and on the checksum -/

/-- C2: a registry that meets the data-model invariants and an ordinary input
on which `isValid` does not return: with the rule `AA` (length 5, one digit
after the prefix) the input `AA001` passes the length and pattern checks, its
numeric string `1101000` has seven digits, and the final `substr` throws
`std::out_of_range`. -/
theorem isValid_short_rule_throws :
    (shortRegistry.specifications.all fun e =>
        decide (e.1.length = 2) && e.1.all isupper && decide (5 ≤ e.2.getLength)) = true ∧
      oneDigit ((str "AA001").drop 4) = true ∧
      numberstring (rotate4 (str "AA001")) = str "1101000" ∧
      shortRegistry.isValid (str "AA001") = .raise .out_of_range := by
  decide

/-- C3, as stated, fails: with the rule `AA` (length 9, five alphanumeric
chars) the input `AA1500013` is valid, and replacing its last char `3` by the
letter `A` gives `AA150001A`, which is valid as well. -/
theorem substitution_undetected :
    alnumRegistry.isValid (str "AA1500013") = .ret true ∧
      (str "AA1500013")[8]? = some 51 ∧ toupper 65 ≠ toupper 51 ∧
      (str "AA1500013").set 8 65 = str "AA150001A" ∧
      alnumRegistry.isValid ((str "AA1500013").set 8 65) = .ret true := by
  decide

/-- C3, amended: for every registry and every input `x` (shorter than
`2 ^ 63`, as every `std::string` is) on which `isValid` returns true, replacing
the char at an index `i ≥ 4` by a char `c` that, after upper-casing, differs
from the old one and is of the same class (both digits or both uppercase
letters) gives an input on which `isValid` returns false. -/
theorem same_class_substitution_detected (v : Validate) (x : CString) (i a c : Nat)
    (hvalid : v.isValid x = .ret true) (hi : 4 ≤ i) (hget : x[i]? = some a)
    (hclass : sameClass (toupper a) (toupper c) = true) (hne : toupper c ≠ toupper a)
    (hsize : x.length < 2 ^ 63) :
    v.isValid (x.set i c) = .ret false := by
  obtain ⟨hlt, _⟩ := List.getElem?_eq_some.1 hget
  obtain ⟨h5, spec, hfind, hlen, hre, hiso⟩ := (isValid_ret_true v x).1 hvalid
  have hA : 4 ≤ ((x.take i).map toupper).length := by
    rw [List.length_map, List.length_take]
    omega
  have hu : x.map toupper
      = (x.take i).map toupper ++ toupper a :: (x.drop (i + 1)).map toupper := by
    conv_lhs => rw [split_at_index x i a hget]
    rw [List.map_append, List.map_cons]
  have hu2 : (x.set i c).map toupper
      = (x.take i).map toupper ++ toupper c :: (x.drop (i + 1)).map toupper := by
    rw [set_at_index x i a c hget, List.map_append, List.map_cons]
  have hlen2 : ((x.set i c).map toupper).length = (x.map toupper).length := by
    rw [List.length_map, List.length_map, List.length_set]
  have htake : ((x.set i c).map toupper).take 2 = (x.map toupper).take 2 := by
    rw [hu, hu2, List.take_append_of_le_length (by omega),
      List.take_append_of_le_length (by omega)]
  have hS : (numberstring (rotate4 (x.map toupper))).length < SIZE_MOD :=
    numberstring_size _ (by rw [List.length_map]; exact hsize)
  have hbad : iso7064Mod97_10 ((x.set i c).map toupper) = .ret false := by
    rw [hu2]
    rw [hu] at hS hiso
    exact iso_subst_tail _ _ _ _ hA hclass (Ne.symm hne) hS hiso
  rw [isValid_unfold, hlen2, htake, hfind, if_neg (by omega)]
  simp only [hlen, if_true]
  by_cases hr : spec.checkRegex (((x.set i c).map toupper).drop 4) = true
  · rw [if_pos hr, hbad]
  · rw [if_neg hr]

theorem same_class_substitution_detected_witness :
    gbRegistry.isValid (str "GB82WEST12345698765432") = .ret true ∧ 4 ≤ 21 ∧
      (str "GB82WEST12345698765432")[21]? = some 50 ∧
      sameClass (toupper 50) (toupper 51) = true ∧ toupper 51 ≠ toupper 50 ∧
      (str "GB82WEST12345698765432").length < 2 ^ 63 ∧
      gbRegistry.isValid ((str "GB82WEST12345698765432").set 21 51) = .ret false :=
  ⟨by decide, by decide, by decide, by decide, by decide, by decide,
    same_class_substitution_detected gbRegistry _ 21 50 51 (by decide) (by decide) (by decide)
      (by decide) (by decide) (by decide)⟩

/-- C5: with a registry whose `GB` rule has length 22 and the pattern "four
uppercase letters, fourteen digits", `isValid` returns true on
`GB82WEST12345698765432` and false on `GB82WEST12345698765433`, where it is the
checksum that fails. -/
theorem gb_example (v : Validate) (spec : Specification)
    (hfind : v.find (str "GB") = some spec) (hlen : spec.getLength = 22)
    (hpat : spec.checkRegex = gbPattern) :
    v.isValid (str "GB82WEST12345698765432") = .ret true ∧
      v.isValid (str "GB82WEST12345698765433") = .ret false ∧
      gbPattern ((str "GB82WEST12345698765433").drop 4) = true ∧
      iso7064Mod97_10 (str "GB82WEST12345698765433") = .ret false := by
  have hu1 : (str "GB82WEST12345698765432").map toupper = str "GB82WEST12345698765432" := by
    decide
  have hu2 : (str "GB82WEST12345698765433").map toupper = str "GB82WEST12345698765433" := by
    decide
  have hl1 : (str "GB82WEST12345698765432").length = 22 := by decide
  have hl2 : (str "GB82WEST12345698765433").length = 22 := by decide
  have ht1 : (str "GB82WEST12345698765432").take 2 = str "GB" := by decide
  have ht2 : (str "GB82WEST12345698765433").take 2 = str "GB" := by decide
  have hp1 : gbPattern ((str "GB82WEST12345698765432").drop 4) = true := by decide
  have hp2 : gbPattern ((str "GB82WEST12345698765433").drop 4) = true := by decide
  have hc1 : iso7064Mod97_10 (str "GB82WEST12345698765432") = .ret true := by decide
  have hc2 : iso7064Mod97_10 (str "GB82WEST12345698765433") = .ret false := by decide
  refine ⟨?_, ?_, hp2, hc2⟩
  · rw [isValid_unfold, hu1, hl1, ht1, hfind]
    simp only [hlen, hpat, hp1, hc1, if_true]
    rfl
  · rw [isValid_unfold, hu2, hl2, ht2, hfind]
    simp only [hlen, hpat, hp2, hc2, if_true]
    rfl

theorem gb_example_witness :
    gbRegistry.find (str "GB") = some ⟨gbPattern, 22, true⟩ ∧
      (gbRegistry.isValid (str "GB82WEST12345698765432") = .ret true ∧
        gbRegistry.isValid (str "GB82WEST12345698765433") = .ret false ∧
        gbPattern ((str "GB82WEST12345698765433").drop 4) = true ∧
        iso7064Mod97_10 (str "GB82WEST12345698765433") = .ret false) :=
  ⟨rfl, gb_example gbRegistry ⟨gbPattern, 22, true⟩ rfl rfl rfl⟩

/-- C9, as stated, fails: adding a second rule for `GB`, with a pattern that
compiles, to a registry that has one returns normally and leaves the registry
as it was. (What does end the process is a pattern that does not compile.) -/
theorem duplicate_country_accepted :
    (gbRegistry.find (str "GB")).isSome = true ∧
      gbRegistry.addSpecification exampleRegex (str "GB") 30 (str "[0-9]") false
        = .ret gbRegistry ∧
      gbRegistry.addSpecification exampleRegex (str "GB") 30 (str "[") false
        = .terminate :=
  ⟨rfl, rfl, rfl⟩

/-- C9, amended: for every registry that already contains the country code
`k`, `addSpecification k ...` does not report the duplicate. With a pattern
that `std::regex` accepts it returns normally and leaves the registry
unchanged: the old entry is kept and the new one is dropped. With a pattern
that `std::regex` rejects, the exception of the constructor reaches the
`noexcept` boundary and `std::terminate` ends the process. -/
theorem addSpecification_duplicate (regex : CString → Option (CString → Bool))
    (v : Validate) (k : CString) (length : Nat) (pattern : CString) (is_sepa : Bool)
    (h : (v.find k).isSome = true) :
    v.addSpecification regex k length pattern is_sepa =
      match regex pattern with
      | some _ => .ret v
      | none => .terminate := by
  unfold Validate.addSpecification Specification.construct
  cases hr : regex pattern with
  | none => rfl
  | some matcher =>
    cases hf : v.find k with
    | none => rw [hf] at h; cases h
    | some spec => rfl

theorem addSpecification_duplicate_witness :
    (gbRegistry.find (str "GB")).isSome = true ∧
      gbRegistry.addSpecification exampleRegex (str "GB") 30 (str "[0-9]") false =
        match exampleRegex (str "[0-9]") with
        | some _ => .ret gbRegistry
        | none => .terminate :=
  ⟨rfl, addSpecification_duplicate exampleRegex gbRegistry (str "GB") 30 (str "[0-9]") false
    rfl⟩

/-! ## The padding step -/

theorem stol_all_digits (ds : CString) (h : ∀ c ∈ ds, isdigit c = true) :
    stol ds =
      if ds.isEmpty then .raise .invalid_argument
      else if LONG_MAX < decimal ds then .raise .out_of_range
      else .ret (decimal ds) := by
  have htw : ds.takeWhile isdigit = ds := List.takeWhile_eq_self_iff.2 h
  unfold stol
  simp only [htw]

theorem stol_samePrefixValue (p q seg : CString) (h : samePrefixValue p q)
    (hseg : ∀ c ∈ seg, isdigit c = true) : stol (p ++ seg) = stol (q ++ seg) := by
  obtain ⟨hp, hq, hval, hnil⟩ := h
  have hall : ∀ (r : CString), (∀ c ∈ r, isdigit c = true) →
      ∀ c ∈ r ++ seg, isdigit c = true := by
    intro r hr c hc
    rcases List.mem_append.1 hc with h1 | h1
    · exact hr c h1
    · exact hseg c h1
  have hempty : (p ++ seg).isEmpty = (q ++ seg).isEmpty := by
    cases p with
    | nil =>
      have hq0 : q = [] := hnil.1 rfl
      rw [hq0]
    | cons a p =>
      cases q with
      | nil => exact absurd (hnil.2 rfl) (List.cons_ne_nil a p)
      | cons b q => rfl
  rw [stol_all_digits _ (hall p hp), stol_all_digits _ (hall q hq), decimal_append,
    decimal_append, hval, hempty]

theorem to_string_digits (r : Nat) (h : r < 97) :
    samePrefixValue (if r < 10 then 48 :: to_string r else to_string r) (to_string r) := by
  rw [padded_eq r h]
  refine ⟨two_digits r h, ?_, ?_, ?_⟩
  · by_cases h10 : r < 10
    · rw [to_string_one_digit r h10]
      intro c hc
      rw [List.mem_singleton] at hc
      rw [isdigit_iff]
      omega
    · rw [to_string_two_digits r (by omega) (by omega)]
      exact two_digits r h
  · rw [decimal_two r h]
    by_cases h10 : r < 10
    · rw [to_string_one_digit r h10]
      simp only [decimal, List.foldl_cons, List.foldl_nil]
      omega
    · rw [to_string_two_digits r (by omega) (by omega), decimal_two r h]
  · by_cases h10 : r < 10
    · rw [to_string_one_digit r h10]
      constructor <;> intro hc <;> cases hc
    · rw [to_string_two_digits r (by omega) (by omega)]

/-- The loop with and without the padding step makes the same moves: the two
values of `prepended` always denote the same number. -/
theorem chunkLoop_unpadded (ns : CString) (hd : ∀ c ∈ ns, isdigit c = true) :
    ∀ (fuel segstart step : Nat) (p q : CString), samePrefixValue p q →
      sameExit (chunkLoop ns fuel segstart step p) (chunkLoopUnpadded ns fuel segstart step q) := by
  intro fuel
  induction fuel with
  | zero =>
    intro segstart step p q _
    exact Or.inr (Or.inr ⟨rfl, rfl⟩)
  | succ fuel ih =>
    intro segstart step p q hpq
    rw [chunkLoop, chunkLoopUnpadded]
    by_cases hc : segstart < (ns.length + SIZE_MOD - step) % SIZE_MOD
    · rw [if_pos hc, if_pos hc]
      by_cases hs : ns.length < segstart
      · have hsub : substr ns segstart step = .raise .out_of_range := by
          unfold substr
          rw [if_pos hs]
        rw [hsub, bind_raise, bind_raise]
        exact Or.inr (Or.inl ⟨_, rfl, rfl⟩)
      · have hsub : substr ns segstart step = .ret ((ns.drop segstart).take step) := by
          unfold substr
          rw [if_neg hs]
        have hsegd : ∀ c ∈ (ns.drop segstart).take step, isdigit c = true :=
          fun c hc => hd c (List.mem_of_mem_drop (List.mem_of_mem_take hc))
        rw [hsub, bind_ret, bind_ret, ← stol_samePrefixValue p q _ hpq hsegd]
        cases hst : stol (p ++ (ns.drop segstart).take step) with
        | raise e =>
          rw [bind_raise, bind_raise]
          exact Or.inr (Or.inl ⟨_, rfl, rfl⟩)
        | diverge => exact Or.inr (Or.inr ⟨rfl, rfl⟩)
        | ret number =>
          rw [bind_ret, bind_ret]
          exact ih _ _ _ _ (to_string_digits _ (Nat.mod_lt _ (by decide)))
    · rw [if_neg hc, if_neg hc]
      exact Or.inl ⟨_, _, _, rfl, rfl, hpq⟩

/-- The padding step never changes the result of the check. -/
theorem iso_eq_unpadded (s : CString) : iso7064Mod97_10 s = unpaddedMod97_10 s := by
  have hd := numberstring_digits (rotate4 s)
  unfold iso7064Mod97_10 unpaddedMod97_10
  simp only
  generalize numberstring (rotate4 s) = ns at hd
  have hno : ∀ c ∈ ([] : CString), isdigit c = true := by
    intro c hc
    cases hc
  have hnil : samePrefixValue ([] : CString) [] := ⟨hno, hno, rfl, Iff.rfl⟩
  rcases chunkLoop_unpadded ns hd (ns.length + 2) 0 9 [] [] hnil with
    ⟨seg, p, q, h1, h2, hpq⟩ | ⟨e, h1, h2⟩ | ⟨h1, h2⟩
  · rw [h1, h2, bind_ret, bind_ret]
    simp only
    by_cases hs : ns.length < seg
    · have hsub : substrFrom ns seg = .raise .out_of_range := by
        unfold substrFrom
        rw [if_pos hs]
      rw [hsub, bind_raise, bind_raise]
    · rw [substrFrom_of_le _ _ (by omega), bind_ret, bind_ret,
        stol_samePrefixValue p q _ hpq (fun c hc => hd c (List.mem_of_mem_drop hc))]
  · rw [h1, h2]
  · rw [h1, h2]

/-! ## The numeric bounds of the reduction -/

/-- The loop with a log returns what the loop returns. -/
theorem chunkLoopLog_snd (ns : CString) :
    ∀ (fuel segstart step : Nat) (prepended : CString),
      (chunkLoopLog ns fuel segstart step prepended).2
        = chunkLoop ns fuel segstart step prepended := by
  intro fuel
  induction fuel with
  | zero =>
    intro segstart step prepended
    rfl
  | succ fuel ih =>
    intro segstart step prepended
    rw [chunkLoopLog, chunkLoop]
    by_cases hc : segstart < (ns.length + SIZE_MOD - step) % SIZE_MOD
    · rw [if_pos hc, if_pos hc]
      cases hsub : substr ns segstart step with
      | raise e => rfl
      | diverge => rfl
      | ret seg =>
        rw [bind_ret]
        simp only
        cases hst : stol (prepended ++ seg) with
        | raise e => rfl
        | diverge => rfl
        | ret number =>
          rw [bind_ret]
          simp only
          exact ih _ _ _
    · rw [if_neg hc, if_neg hc]

theorem stolCall_inBounds (argument : CString) (hd : ∀ c ∈ argument, isdigit c = true)
    (hne : argument ≠ []) (hlen : argument.length ≤ 9) :
    (Event.stolCall argument).inBounds := by
  have hlt := decimal_lt argument hd
  have hpow : 10 ^ argument.length ≤ 10 ^ 9 := Nat.pow_le_pow_right (by decide) hlen
  have h9 : (10 : Nat) ^ 9 = 1000000000 := by norm_num
  refine ⟨hne, hlen, hd, ?_, ?_⟩ <;> omega

/-- Every event of the loop on a numeric string of at least nine digits is
within the bounds. -/
theorem chunkLoopLog_bounds (ns : CString) (hd : ∀ c ∈ ns, isdigit c = true)
    (hL : 9 ≤ ns.length) (hS : ns.length < SIZE_MOD) :
    ∀ (fuel segstart step : Nat) (prepended : CString),
      segstart < ns.length →
      (step = 9 ∨ step = 7) →
      prepended.length + step = 9 →
      (∀ c ∈ prepended, isdigit c = true) →
      ∀ e ∈ (chunkLoopLog ns fuel segstart step prepended).1, e.inBounds := by
  intro fuel
  induction fuel with
  | zero =>
    intro segstart step prepended _ _ _ _ e he
    cases he
  | succ fuel ih =>
    intro segstart step prepended hseg hstep hplen hpd
    have hwrap : (ns.length + SIZE_MOD - step) % SIZE_MOD = ns.length - step := by
      unfold SIZE_MOD at *
      omega
    rw [chunkLoopLog, hwrap]
    by_cases hc : segstart < ns.length - step
    · rw [if_pos hc]
      have hsub : substr ns segstart step = .ret ((ns.drop segstart).take step) := by
        unfold substr
        rw [if_neg (by omega)]
      rw [hsub]
      simp only
      have hseglen : ((ns.drop segstart).take step).length = step := by
        simp only [List.length_take, List.length_drop]
        omega
      have hsegd : ∀ c ∈ (ns.drop segstart).take step, isdigit c = true :=
        fun c hc => hd c (List.mem_of_mem_drop (List.mem_of_mem_take hc))
      have hall : ∀ c ∈ prepended ++ (ns.drop segstart).take step, isdigit c = true := by
        intro c hc
        rcases List.mem_append.1 hc with h1 | h1
        · exact hpd c h1
        · exact hsegd c h1
      have hne : prepended ++ (ns.drop segstart).take step ≠ [] := by
        intro h0
        have := congrArg List.length h0
        simp only [List.length_append, hseglen, List.length_nil] at this
        omega
      have hlen9 : (prepended ++ (ns.drop segstart).take step).length ≤ 9 := by
        simp only [List.length_append, hseglen]
        omega
      rw [stol_digits _ hall hne hlen9]
      simp only
      have hr : decimal (prepended ++ (ns.drop segstart).take step) % 97 < 97 :=
        Nat.mod_lt _ (by decide)
      rw [padded_eq _ hr]
      have hadd : (segstart + step) % SIZE_MOD = segstart + step :=
        Nat.mod_eq_of_lt (by unfold SIZE_MOD at *; omega)
      rw [hadd]
      intro e he
      rcases List.mem_cons.1 he with h1 | h1
      · rw [h1]
        exact stolCall_inBounds _ hall hne hlen9
      · rcases List.mem_cons.1 h1 with h2 | h2
        · rw [h2]
          exact ⟨by omega, rfl, two_digits _ hr⟩
        · refine ih _ _ _ (by omega) (Or.inr rfl) ?_ (two_digits _ hr) e h2
          rfl
    · rw [if_neg hc]
      intro e he
      cases he

/-- The check with a log returns what the check returns, and on a numeric
string of at least nine digits every event of its run is within the bounds. -/
theorem iso_log_bounds (s : CString) (hL : 9 ≤ (numberstring (rotate4 s)).length)
    (hS : (numberstring (rotate4 s)).length < SIZE_MOD) :
    (iso7064Mod97_10_log s).2 = iso7064Mod97_10 s ∧
      ∀ e ∈ (iso7064Mod97_10_log s).1, e.inBounds := by
  have hd := numberstring_digits (rotate4 s)
  unfold iso7064Mod97_10_log iso7064Mod97_10
  simp only
  generalize numberstring (rotate4 s) = ns at hL hS hd
  have h0 : decimal ([] : CString) % 97 = decimal (ns.take 0) % 97 := by
    rw [List.take_zero]
  have hnil : ∀ c ∈ ([] : CString), isdigit c = true := by
    intro c hc; cases hc
  have hlen0 : ([] : CString).length + 9 = 9 := rfl
  obtain ⟨seg, p, hloop, hseg, hlen, hpd, _⟩ :=
    chunkLoop_spec ns hd hL hS (ns.length + 2) 0 9 [] (by omega) (by omega) (Or.inl rfl) hlen0
      hnil h0
  have hlink := chunkLoopLog_snd ns (ns.length + 2) 0 9 []
  have hbounds := chunkLoopLog_bounds ns hd hL hS (ns.length + 2) 0 9 [] (by omega)
    (Or.inl rfl) hlen0 hnil
  rw [hloop] at hlink ⊢
  generalize chunkLoopLog ns (ns.length + 2) 0 9 [] = run at hlink hbounds
  obtain ⟨log, out⟩ := run
  simp only at hlink hbounds
  subst hlink
  have hsub : substrFrom ns seg = .ret (ns.drop seg) := substrFrom_of_le _ _ (by omega)
  simp only [finishLog, hsub, bind_ret]
  refine ⟨trivial, ?_⟩
  intro e he
  rcases List.mem_append.1 he with h1 | h1
  · exact hbounds e h1
  · rw [List.mem_singleton] at h1
    rw [h1]
    have hall : ∀ c ∈ p ++ ns.drop seg, isdigit c = true := by
      intro c hc
      rcases List.mem_append.1 hc with h2 | h2
      · exact hpd c h2
      · exact hd c (List.mem_of_mem_drop h2)
    have hne : p ++ ns.drop seg ≠ [] := by
      intro h0
      have := congrArg List.length h0
      simp only [List.length_append, List.length_drop, List.length_nil] at this
      omega
    exact stolCall_inBounds _ hall hne
      (by simp only [List.length_append, List.length_drop]; omega)

/-! ## Replacing a stretch of the string -/

/-- Replacing a stretch by one with as many digits and another remainder
modulo 97 keeps the length of the numeric string and changes its remainder. -/
theorem numberstring_replace (A B M N : CString)
    (hlen : (numberstring M).length = (numberstring N).length)
    (hval : decimal (numberstring M) % 97 ≠ decimal (numberstring N) % 97) :
    (numberstring (A ++ (M ++ B))).length = (numberstring (A ++ (N ++ B))).length ∧
      decimal (numberstring (A ++ (M ++ B))) % 97
        ≠ decimal (numberstring (A ++ (N ++ B))) % 97 := by
  have hshape : ∀ X : CString, numberstring (A ++ (X ++ B))
      = (numberstring A ++ numberstring X) ++ numberstring B := by
    intro X
    rw [numberstring_append, numberstring_append, List.append_assoc]
  refine ⟨?_, ?_⟩
  · rw [hshape, hshape]
    simp only [List.length_append, hlen]
  · intro heq
    rw [hshape, hshape, decimal_append, decimal_append, decimal_append, decimal_append,
      hlen] at heq
    have h1 : (decimal (numberstring A) * 10 ^ (numberstring N).length
            + decimal (numberstring M)) * 10 ^ (numberstring B).length
        ≡ (decimal (numberstring A) * 10 ^ (numberstring N).length
            + decimal (numberstring N)) * 10 ^ (numberstring B).length [MOD 97] :=
      Nat.ModEq.add_right_cancel' _ heq
    have h2 := Nat.ModEq.cancel_right_of_coprime (coprime_97_pow _) h1
    have h3 : decimal (numberstring M) ≡ decimal (numberstring N) [MOD 97] :=
      Nat.ModEq.add_left_cancel' _ h2
    exact hval h3

/-- The rotation moves a stretch of the string as a whole: behind the first
four chars it stays in one piece, and so does a single char anywhere. -/
theorem rotate4_append (A T : CString) (hA : 4 ≤ A.length) :
    rotate4 (A ++ T) = A.drop 4 ++ (T ++ A.take 4) := by
  unfold rotate4
  rw [List.drop_append_of_le_length hA, List.take_append_of_le_length hA, List.append_assoc]

theorem rotate4_head (A B : CString) (x : Nat) (hA : A.length < 4) :
    rotate4 (A ++ ([x] ++ B)) = (B.drop (3 - A.length) ++ A) ++ ([x] ++ B.take (3 - A.length)) := by
  unfold rotate4
  have h4 : 4 - A.length = (3 - A.length) + 1 := by omega
  rw [List.drop_append_eq_append_drop, List.take_append_eq_append_take,
    List.drop_of_length_le (by omega), List.take_of_length_le (by omega), h4]
  simp only [List.singleton_append, List.drop_succ_cons, List.take_succ_cons, List.nil_append,
    List.append_assoc]

/-- A valid check turns invalid when the numeric string keeps its length and
changes its remainder. -/
theorem iso_changed (s t : CString)
    (hlen : (numberstring (rotate4 s)).length = (numberstring (rotate4 t)).length)
    (hval : decimal (numberstring (rotate4 s)) % 97 ≠ decimal (numberstring (rotate4 t)) % 97)
    (hS : (numberstring (rotate4 s)).length < SIZE_MOD)
    (hok : iso7064Mod97_10 s = .ret true) :
    iso7064Mod97_10 t = .ret false := by
  have hL : 9 ≤ (numberstring (rotate4 s)).length := by
    by_contra hlt
    rw [iso_of_short _ (by omega)] at hok
    cases hok
  rw [iso_of_long _ hL hS] at hok
  have h1 : decimal (numberstring (rotate4 s)) % 97 = 1 := by
    injection hok with hb
    exact of_decide_eq_true hb
  rw [iso_of_long _ (by rw [← hlen]; exact hL) (by rw [← hlen]; exact hS)]
  have h2 : ¬ decimal (numberstring (rotate4 t)) % 97 = 1 := by
    intro h3
    exact hval (h1.trans h3.symm)
  rw [decide_eq_false h2]

/-- The check detects the replacement of one char, at any index, by a
different char of the same class. -/
theorem iso_subst_any (A B : CString) (a c : Nat) (h : sameClass a c = true) (hne : a ≠ c)
    (hS : (numberstring (rotate4 (A ++ ([a] ++ B)))).length < SIZE_MOD)
    (hok : iso7064Mod97_10 (A ++ ([a] ++ B)) = .ret true) :
    iso7064Mod97_10 (A ++ ([c] ++ B)) = .ret false := by
  obtain ⟨hlen, _, _, hval⟩ := substitute_sameClass a c h hne
  have hone : ∀ x : Nat, numberstring [x] = substitute x := by
    intro x
    rw [numberstring, numberstring, List.append_nil]
  have hlen1 : (numberstring [a]).length = (numberstring [c]).length := by
    rw [hone, hone, hlen]
  have hval1 : decimal (numberstring [a]) % 97 ≠ decimal (numberstring [c]) % 97 := by
    rw [hone, hone]
    obtain ⟨_, ha, hc, hv⟩ := substitute_sameClass a c h hne
    rw [Nat.mod_eq_of_lt ha, Nat.mod_eq_of_lt hc]
    exact hv
  by_cases hA : 4 ≤ A.length
  · obtain ⟨h1, h2⟩ := numberstring_replace (A.drop 4) (B ++ A.take 4) [a] [c] hlen1 hval1
    have e1 : ∀ x : Nat, rotate4 (A ++ ([x] ++ B)) = A.drop 4 ++ ([x] ++ (B ++ A.take 4)) := by
      intro x
      rw [rotate4_append A _ hA, List.append_assoc]
    rw [← e1, ← e1] at h1 h2
    exact iso_changed _ _ h1 h2 hS hok
  · obtain ⟨h1, h2⟩ := numberstring_replace (B.drop (3 - A.length) ++ A)
      (B.take (3 - A.length)) [a] [c] hlen1 hval1
    rw [← rotate4_head A B a (by omega), ← rotate4_head A B c (by omega)] at h1 h2
    exact iso_changed _ _ h1 h2 hS hok

/-- Two different adjacent digits, swapped, change the remainder. -/
theorem swap_digits (a b : Nat) (ha : isdigit a = true) (hb : isdigit b = true)
    (hne : a ≠ b) :
    (numberstring [a, b]).length = (numberstring [b, a]).length ∧
      decimal (numberstring [a, b]) % 97 ≠ decimal (numberstring [b, a]) % 97 := by
  have ha2 := (isdigit_iff a).1 ha
  have hb2 := (isdigit_iff b).1 hb
  have hab : numberstring [a, b] = [a, b] := by
    rw [numberstring, numberstring, numberstring, substitute_digit a ha, substitute_digit b hb]
    rfl
  have hba : numberstring [b, a] = [b, a] := by
    rw [numberstring, numberstring, numberstring, substitute_digit a ha, substitute_digit b hb]
    rfl
  rw [hab, hba]
  refine ⟨rfl, ?_⟩
  simp only [decimal, List.foldl_cons, List.foldl_nil]
  omega

theorem split_at_pair (s : CString) (i a b : Nat) (ha : s[i]? = some a)
    (hb : s[i + 1]? = some b) :
    s = s.take i ++ ([a, b] ++ s.drop (i + 2)) ∧
      (s.set i b).set (i + 1) a = s.take i ++ ([b, a] ++ s.drop (i + 2)) := by
  obtain ⟨hlt, hga⟩ := List.getElem?_eq_some.1 ha
  obtain ⟨hlt1, hgb⟩ := List.getElem?_eq_some.1 hb
  have hdrop : s.drop (i + 1) = b :: s.drop (i + 2) := by
    rw [← hgb, List.getElem_cons_drop]
  have h1 : s = s.take i ++ ([a, b] ++ s.drop (i + 2)) := by
    conv_lhs => rw [split_at_index s i a ha, hdrop]
    rfl
  refine ⟨h1, ?_⟩
  rw [set_at_index s i a b ha, hdrop]
  have hlen : (s.take i).length = i := by
    rw [List.length_take]
    omega
  rw [List.set_append, if_neg (by omega), hlen]
  have h1 : i + 1 - i = 1 := by omega
  rw [h1]
  rfl

/-! ## Registries of alphanumeric rules -/

theorem find_mem (v : Validate) (key : CString) (spec : Specification)
    (h : v.find key = some spec) : (key, spec) ∈ v.specifications := by
  unfold Validate.find at h
  generalize v.specifications = l at h
  induction l with
  | nil => cases h
  | cons e rest ih =>
    obtain ⟨k, sp⟩ := e
    rw [List.lookup_cons] at h
    by_cases hk : (key == k) = true
    · rw [hk] at h
      have hkey : key = k := eq_of_beq hk
      have hsp : sp = spec := Option.some.inj h
      rw [hkey, hsp]
      exact List.mem_cons_self _ _
    · rw [Bool.not_eq_true] at hk
      rw [hk] at h
      exact List.mem_cons_of_mem _ (ih h)

theorem gbPattern_alnum (t : CString) (h : gbPattern t = true) :
    ∀ c ∈ t, isdigit c = true ∨ isupper c = true := by
  unfold gbPattern at h
  rw [Bool.and_eq_true, Bool.and_eq_true, List.all_eq_true, List.all_eq_true] at h
  obtain ⟨⟨_, hu⟩, hd⟩ := h
  intro c hc
  rw [← List.take_append_drop 4 t] at hc
  rcases List.mem_append.1 hc with h1 | h1
  · exact Or.inr (hu c h1)
  · exact Or.inl (hd c h1)

theorem gbRegistry_alnumRules : gbRegistry.alnumRules := by
  intro key spec hmem
  have he : (key, spec) = (str "GB", ⟨gbPattern, 22, true⟩) := List.mem_singleton.1 hmem
  injection he with hk hs
  subst hk
  subst hs
  exact ⟨by decide, by decide, by decide, gbPattern_alnum⟩

/-! ## The pattern matcher in full -/

/-- C11: an input that meets the stated precondition and on which the check
does not return: `AA001` has five chars, all uppercase letters or digits; its
numeric string `1101000` has seven digits and denotes a number with remainder
50 modulo 97, so the answer should be false; the code throws
`std::out_of_range` from the last `substr`. -/
theorem checksum_short_input_throws :
    (str "AA001").length = 5 ∧
      (∀ c ∈ str "AA001", isdigit c = true ∨ isupper c = true) ∧
      numberstring (rotate4 (str "AA001")) = str "1101000" ∧
      D (str "AA001") = str "1101000" ∧ denoted (D (str "AA001")) % 97 = 50 ∧
      iso7064Mod97_10 (str "AA001") = .raise .out_of_range := by
  decide

/-- C12, as stated, fails: under the rule `GB` (length 22, four letters and
fourteen digits) `isValid` accepts `GB8BWEST12345698765432`, with the letter
`B` at index 3, and `GB!!WEST12345698765489`, with `!` at index 2 and 3. -/
theorem check_digit_positions_unchecked :
    gbRegistry.isValid (str "GB8BWEST12345698765432") = .ret true ∧
      ((str "GB8BWEST12345698765432").map toupper)[3]? = some 66 ∧ isdigit 66 = false ∧
      gbRegistry.isValid (str "GB!!WEST12345698765489") = .ret true ∧
      ((str "GB!!WEST12345698765489").map toupper)[2]? = some 33 ∧ isdigit 33 = false := by
  decide

/-- C12, amended: for every registry whose keys are two uppercase letters and
every input `x` on which `isValid` returns true, the upper-cased `x` has at
least five chars, its chars at index 0 and 1 are uppercase letters, and its
chars from index 4 on match the pattern of the rule of these two letters.
Nothing is said of the chars at index 2 and 3. -/
theorem accepted_shape (v : Validate) (hv : v.letterKeys) (x : CString)
    (hvalid : v.isValid x = .ret true) :
    5 ≤ (x.map toupper).length ∧
      (∀ c ∈ (x.map toupper).take 2, isupper c = true) ∧
      ∃ spec, v.find ((x.map toupper).take 2) = some spec ∧
        spec.checkRegex ((x.map toupper).drop 4) = true := by
  obtain ⟨h5, spec, hfind, _, hre, _⟩ := (isValid_ret_true v x).1 hvalid
  exact ⟨h5, (hv _ _ (find_mem v _ _ hfind)).2, spec, hfind, hre⟩

theorem accepted_shape_witness :
    gbRegistry.isValid (str "GB8BWEST12345698765432") = .ret true ∧
      5 ≤ ((str "GB8BWEST12345698765432").map toupper).length ∧
      (∀ c ∈ ((str "GB8BWEST12345698765432").map toupper).take 2, isupper c = true) ∧
      ∃ spec, gbRegistry.find (((str "GB8BWEST12345698765432").map toupper).take 2)
          = some spec ∧
        spec.checkRegex (((str "GB8BWEST12345698765432").map toupper).drop 4) = true :=
  ⟨by decide,
    accepted_shape gbRegistry (fun k sp h => ⟨(gbRegistry_alnumRules k sp h).1,
      (gbRegistry_alnumRules k sp h).2.1⟩) _ (by decide)⟩

/-- C13, as stated, fails: there is no input on which the check as
implemented and the check without the padding step give different results. -/
theorem padding_not_required : ¬ ∃ s, iso7064Mod97_10 s ≠ unpaddedMod97_10 s := by
  rintro ⟨s, hs⟩
  exact hs (iso_eq_unpadded s)

/-- C13, amended: on every input the check as implemented gives the same
result as the same algorithm with the padding step removed; `std::stol` reads
a chunk with and without the leading zero as the same number, and the length
of the next chunk does not depend on the length of `prepended`. -/
theorem padding_changes_nothing (s : CString) :
    iso7064Mod97_10 s = unpaddedMod97_10 s :=
  iso_eq_unpadded s

/-- C14: when `iso7064Mod97_10 s` returns true (so the numeric string has at
least nine digits; `s` is shorter than `2 ^ 63`, as every `std::string` is),
replacing the char at any one index by a different char of the same class, a
digit by a digit or an uppercase letter by an uppercase letter, gives a string
on which the check returns false. -/
theorem single_substitution_detected (s : CString) (i a c : Nat)
    (hget : s[i]? = some a) (hclass : sameClass a c = true) (hne : c ≠ a)
    (hok : iso7064Mod97_10 s = .ret true) (hsize : s.length < 2 ^ 63) :
    iso7064Mod97_10 (s.set i c) = .ret false := by
  have hS := numberstring_size s hsize
  have h1 : s = s.take i ++ ([a] ++ s.drop (i + 1)) := split_at_index s i a hget
  have h2 : s.set i c = s.take i ++ ([c] ++ s.drop (i + 1)) := set_at_index s i a c hget
  rw [h1] at hS hok
  rw [h2]
  exact iso_subst_any _ _ a c hclass (Ne.symm hne) hS hok

theorem single_substitution_detected_witness :
    (str "GB82WEST12345698765432")[2]? = some 56 ∧ sameClass 56 57 = true ∧ 57 ≠ 56 ∧
      iso7064Mod97_10 (str "GB82WEST12345698765432") = .ret true ∧
      (str "GB82WEST12345698765432").length < 2 ^ 63 ∧
      iso7064Mod97_10 ((str "GB82WEST12345698765432").set 2 57) = .ret false :=
  ⟨by decide, by decide, by decide, by decide, by decide,
    single_substitution_detected _ 2 56 57 (by decide) (by decide) (by decide) (by decide)
      (by decide)⟩

/-- C16: on every input whose numeric string has at least nine digits (the
input shorter than `2 ^ 63`, as every `std::string` is), the run of
`iso7064Mod97_10` returns, and each of its events is within the bounds: every
argument of `std::stol` is a non-empty string of at most nine digits with a
value below `10 ^ 9`, every remainder is at most 96, and `prepended` is two
digits at the end of every iteration. -/
theorem reduction_within_bounds (s : CString)
    (h9 : 9 ≤ (numberstring (rotate4 s)).length) (hsize : s.length < 2 ^ 63) :
    (iso7064Mod97_10_log s).2 = iso7064Mod97_10 s ∧
      (∃ b, iso7064Mod97_10 s = .ret b) ∧
      ∀ e ∈ (iso7064Mod97_10_log s).1, e.inBounds :=
  ⟨(iso_log_bounds s h9 (numberstring_size s hsize)).1,
    ⟨_, iso_of_long s h9 (numberstring_size s hsize)⟩,
    (iso_log_bounds s h9 (numberstring_size s hsize)).2⟩

theorem reduction_within_bounds_witness :
    9 ≤ (numberstring (rotate4 (str "GB82WEST12345698765432"))).length ∧
      (str "GB82WEST12345698765432").length < 2 ^ 63 ∧
      (iso7064Mod97_10_log (str "GB82WEST12345698765432")).2
        = iso7064Mod97_10 (str "GB82WEST12345698765432") ∧
      (∃ b, iso7064Mod97_10 (str "GB82WEST12345698765432") = .ret b) ∧
      ∀ e ∈ (iso7064Mod97_10_log (str "GB82WEST12345698765432")).1, e.inBounds :=
  ⟨by decide, by decide, reduction_within_bounds _ (by decide) (by decide)⟩

/-- C17: when `iso7064Mod97_10 s` returns true (so the numeric string has at
least nine digits; `s` is shorter than `2 ^ 63`, as every `std::string` is)
and the chars at the indices `i ≥ 4` and `i + 1` are two different decimal
digits, swapping them gives a string on which the check returns false. -/
theorem adjacent_digit_swap_detected (s : CString) (i a b : Nat) (hi : 4 ≤ i)
    (ha : s[i]? = some a) (hb : s[i + 1]? = some b)
    (hda : isdigit a = true) (hdb : isdigit b = true) (hne : a ≠ b)
    (hok : iso7064Mod97_10 s = .ret true) (hsize : s.length < 2 ^ 63) :
    iso7064Mod97_10 ((s.set i b).set (i + 1) a) = .ret false := by
  have hS := numberstring_size s hsize
  obtain ⟨h1, h2⟩ := split_at_pair s i a b ha hb
  obtain ⟨hlt, _⟩ := List.getElem?_eq_some.1 ha
  have hA : 4 ≤ (s.take i).length := by
    rw [List.length_take]
    omega
  obtain ⟨hlen, hval⟩ := swap_digits a b hda hdb hne
  obtain ⟨h3, h4⟩ := numberstring_replace ((s.take i).drop 4)
    (s.drop (i + 2) ++ (s.take i).take 4) [a, b] [b, a] hlen hval
  have e1 : ∀ M : CString, rotate4 (s.take i ++ (M ++ s.drop (i + 2)))
      = (s.take i).drop 4 ++ (M ++ (s.drop (i + 2) ++ (s.take i).take 4)) := by
    intro M
    rw [rotate4_append _ _ hA, List.append_assoc]
  rw [← e1, ← e1] at h3 h4
  rw [h1] at hS hok
  rw [h2]
  exact iso_changed _ _ h3 h4 hS hok

theorem adjacent_digit_swap_detected_witness :
    4 ≤ 20 ∧ (str "GB82WEST12345698765432")[20]? = some 51 ∧
      (str "GB82WEST12345698765432")[20 + 1]? = some 50 ∧
      isdigit 51 = true ∧ isdigit 50 = true ∧ 51 ≠ 50 ∧
      iso7064Mod97_10 (str "GB82WEST12345698765432") = .ret true ∧
      (str "GB82WEST12345698765432").length < 2 ^ 63 ∧
      iso7064Mod97_10 (((str "GB82WEST12345698765432").set 20 50).set (20 + 1) 51)
        = .ret false :=
  ⟨by decide, by decide, by decide, by decide, by decide, by decide, by decide, by decide,
    adjacent_digit_swap_detected _ 20 51 50 (by decide) (by decide) (by decide) (by decide)
      (by decide) (by decide) (by decide) (by decide)⟩

end Iban
